import Mathlib

/-!
# mpv-jimaku-autoload: the scraping utilities

A shallow embedding of the four Go programs of the repository:

* `unsort/util/nyaa-scraper/jimkau-files.go` : `safeRequest` and the entry loop of `main`;
* `nyaa-scraper/main.go`, `unsort/util/nyaa-scraper/nyaa-land.go`,
  `util/nyaa-scraper/main.go` : the colly page loops and their `OnHTML` callbacks,
  with `isVideo`.

Go strings that are only carried around (URLs, bodies, names) are Lean `String`s; the
strings whose characters the code inspects (titles) are lists of characters.
-/

set_option autoImplicit false

namespace JimakuFiles

/-! ## `jimkau-files.go` : data -/

/-- The struct `FileEntry` of the source. -/
structure FileEntry where
  Name : String
deriving DecidableEq, Repr

/-- The struct `Entry` of the source (`ID` is an `int64`, printed with `%d`). -/
structure Entry where
  ID : Int
  Name : String
deriving DecidableEq, Repr

/-- What `safeRequest` builds in each iteration:
`http.NewRequest("GET", url, nil)` followed by `req.Header.Set("Authorization", auth)`. -/
structure Request where
  Method : String
  URL : String
  Authorization : String
deriving DecidableEq, Repr

/-- A decimal number as a header writes it: `mant` times ten to the `exp10`, negated
when `neg` is set. `8.2` is `⟨false, 82, -1⟩`. -/
structure Decimal where
  neg : Bool
  mant : Nat
  exp10 : Int
deriving DecidableEq, Repr

/-- A whole number of seconds, as in `x-ratelimit-reset-after: 5`. -/
instance (n : Nat) : OfNat Decimal n := ⟨⟨false, n, 0⟩⟩

/-- The `x-ratelimit-reset-after` header of a response, as `resp.Header.Get` and
`strconv.ParseFloat` see it. The texts `inf` and `nan`, which `ParseFloat` accepts, are
not represented. -/
inductive ResetAfter where
  /-- The header is missing: `Header.Get` returns the empty string. -/
  | absent
  /-- The header is present and its text is not a number. -/
  | malformed (text : String)
  /-- The header is present and is a decimal number of seconds. -/
  | seconds (value : Decimal)
deriving DecidableEq, Repr

/-- The part of `*http.Response` that `safeRequest` reads. -/
structure Response where
  StatusCode : Int
  resetAfter : ResetAfter
  Body : String
deriving DecidableEq, Repr

/-- The outcome of one `client.Do(req)`: a transport-level failure (`err != nil`) or a
response. -/
inductive RoundTrip where
  | failed (cause : String)
  | answered (resp : Response)
deriving DecidableEq, Repr

/-- The errors `safeRequest` returns: the error of `client.Do`, the error made by
`fmt.Errorf("server returned status %d", resp.StatusCode)`, and the error of
`json.NewDecoder(resp.Body).Decode(target)`. -/
inductive FetchError where
  | transport (cause : String)
  | status (code : Int)
  | decode (cause : String)
deriving DecidableEq, Repr

/-- The result of a call that returns an `error` and fills `target` when it is `nil`. -/
inductive Result (α : Type) where
  | ok (payload : α)
  | err (e : FetchError)
deriving DecidableEq, Repr

/-- What a run of `safeRequest` did, in order: the requests handed to `client.Do` and
the durations (nanoseconds) handed to `time.Sleep`. -/
structure Trace where
  requests : List Request
  sleeps : List Int
deriving DecidableEq, Repr

/-- The empty trace. -/
def Trace.empty : Trace := ⟨[], []⟩

/-- Time really spent in `time.Sleep`: a negative or zero duration makes `Sleep` return
immediately. -/
def Trace.slept (t : Trace) : Int := (t.sleeps.map (fun d => max d 0)).sum

/-! ### `float64` -/

/-- A finite `float64`: `mant` times two to the `exp`, negated when `neg` is set. -/
structure Float64 where
  neg : Bool
  mant : Nat
  exp : Int
deriving DecidableEq, Repr

/-- The number of binary digits of `n`, for `n` at most `fuel`. -/
def bitLength : Nat → Nat → Nat
  | 0, _ => 0
  | fuel + 1, n => if n = 0 then 0 else bitLength fuel (n / 2) + 1

/-- The exponent of the highest power of two that is at most `n` (0 for `n = 0`). -/
def log2 (n : Nat) : Nat := bitLength n n - 1

/-- The integer nearest to `a / b`, the even one of the two when `a / b` lies half way. -/
def roundHalfEven (a b : Nat) : Nat :=
  let q := a / b
  let r := a % b
  if 2 * r < b then q
  else if b < 2 * r then q + 1
  else if q % 2 = 0 then q else q + 1

/-- The `float64` nearest to the fraction `a / b` (`b` positive), with the sign `neg`:
IEEE 754 rounding to nearest, ties to even, on a significand of 53 bits. The exponent is
left unbounded: where a real `float64` is subnormal, zero or infinite, the nanosecond
count computed below from it is the same (zero, or out of the `int64` range). -/
def nearestFloat64 (neg : Bool) (a b : Nat) : Float64 :=
  if a = 0 then ⟨neg, 0, 0⟩
  else
    let d : Int := (log2 a : Int) - (log2 b : Int)
    let l : Int := if b * 2 ^ d.toNat ≤ a * 2 ^ (-d).toNat then d else d - 1
    let e : Int := l - 52
    ⟨neg, roundHalfEven (a * 2 ^ (-e).toNat) (b * 2 ^ e.toNat), e⟩

/-- The product `x * y` of two `float64`: the exact product, rounded. -/
def Float64.mul (x y : Float64) : Float64 :=
  nearestFloat64 (x.neg != y.neg) (x.mant * y.mant * 2 ^ (x.exp + y.exp).toNat)
    (2 ^ (-(x.exp + y.exp)).toNat)

/-- The value `float64(time.Second)`: 1e9, which a `float64` holds exactly. -/
def float64Second : Float64 := ⟨false, 1000000000, 0⟩

/-- The conversion `time.Duration(x)` of a `float64` to `int64`: the fraction is
discarded. For a value outside the `int64` range Go leaves the result to the
implementation; it is the one of amd64 here, the least `int64`. -/
def Duration (x : Float64) : Int :=
  let n : Nat := x.mant * 2 ^ x.exp.toNat / 2 ^ (-x.exp).toNat
  let v : Int := if x.neg then -(n : Int) else (n : Int)
  if -2 ^ 63 ≤ v ∧ v < 2 ^ 63 then v else -2 ^ 63

/-- `strconv.ParseFloat(resetAfter, 64)` on the header text: the value, and whether an
error is returned. A syntax error (which the empty string of an absent header is) gives
the value 0 together with the error; a decimal number gives the nearest `float64`. For a
number beyond the `float64` range Go returns an infinity and a range error, which is not
raised here: the source discards the error, and the duration slept is the same. -/
def ParseFloat : ResetAfter → Float64 × Bool
  | .absent => (⟨false, 0, 0⟩, true)
  | .malformed _ => (⟨false, 0, 0⟩, true)
  | .seconds d =>
    (nearestFloat64 d.neg (d.mant * 10 ^ d.exp10.toNat) (10 ^ (-d.exp10).toNat), false)

/-- The duration, in nanoseconds, that `safeRequest` hands to `time.Sleep` for a 429
response with the given header:
`time.Duration(seconds * float64(time.Second))` for the parsed `seconds`. -/
def backoff (header : ResetAfter) : Int :=
  Duration ((ParseFloat header).1.mul float64Second)

/-- The function `safeRequest(url, auth, target)`, run against the list of outcomes that
the successive `client.Do` calls will have. `Decode` is `json.NewDecoder(body).Decode`
for the type of `target`. The result is `none` when the listed outcomes run out before
the loop has returned; otherwise it is the returned error or decoded target, the trace
extended by what the call did, and the outcomes left unused. `url` is a URL that
`http.NewRequest` accepts (its error is discarded by the source). -/
def safeRequest {α : Type} (Decode : String → Except String α) (url auth : String) :
    List RoundTrip → Trace → Option (Result α × Trace × List RoundTrip)
  | [], _ => none
  | .failed cause :: rest, t =>
    let req : Request := ⟨"GET", url, auth⟩
    some (.err (.transport cause), { t with requests := t.requests ++ [req] }, rest)
  | .answered resp :: rest, t =>
    let req : Request := ⟨"GET", url, auth⟩
    let t := { t with requests := t.requests ++ [req] }
    if resp.StatusCode = 429 then
      let seconds := (ParseFloat resp.resetAfter).1
      let d := Duration (seconds.mul float64Second)
      safeRequest Decode url auth rest { t with sleeps := t.sleeps ++ [d] }
    else if resp.StatusCode ≠ 200 then
      some (.err (.status resp.StatusCode), t, rest)
    else
      match Decode resp.Body with
      | .error cause => some (.err (.decode cause), t, rest)
      | .ok payload => some (.ok payload, t, rest)

/-- A decoder for the concrete runs below: `json` decoding into `[]FileEntry` of the
three bodies used there. The text `[]` is the empty array, the second text is an array
of one object with the name `a.srt`, and any other text used below (`<html>`) is not
JSON. -/
def sampleDecode (body : String) : Except String (List FileEntry) :=
  if body = "[]" then .ok []
  else if body = "[\x7b\"name\":\"a.srt\"\x7d]" then .ok [⟨"a.srt"⟩]
  else .error "invalid character"

/-- The request every iteration of `safeRequest` builds. -/
def requestOf (url auth : String) : Request := ⟨"GET", url, auth⟩

/-- The URL `fmt.Sprintf("https://jimaku.cc/api/entries/%d/files", entry.ID)`. -/
def filesURL (id : Int) : String :=
  "https://jimaku.cc/api/entries/" ++ toString id ++ "/files"

/-- The lines `file.WriteString(f.Name + "\n")` writes for the decoded `files`. -/
def fileLines (files : List FileEntry) : List String :=
  files.map (fun f => f.Name ++ "\n")

/-- The loop `for _, entry := range entries` of `main`, run in a world `w`, with the
strings written to `file` so far. `fetch url auth w` is the call
`safeRequest(filesURL, apiKey, &files)` made in the world `w`: `none` when it does not
return, otherwise its result and the world after it. On an error the loop prints and
goes on with the next entry (`continue`); on success it writes one line per file. -/
def entryLoop {W : Type}
    (fetch : String → String → W → Option (Result (List FileEntry) × W))
    (apiKey : String) : List Entry → W → List String → Option (W × List String)
  | [], w, file => some (w, file)
  | entry :: rest, w, file =>
    match fetch (filesURL entry.ID) apiKey w with
    | none => none
    | some (.err _, w) => entryLoop fetch apiKey rest w file
    | some (.ok files, w) => entryLoop fetch apiKey rest w (file ++ fileLines files)

/-- The world of `safeRequest` itself: the outcomes that the coming `client.Do` calls
will have, and the trace so far. -/
def safeRequestIn (Decode : String → Except String (List FileEntry)) (url auth : String)
    (w : List RoundTrip × Trace) : Option (Result (List FileEntry) × (List RoundTrip × Trace)) :=
  match safeRequest Decode url auth w.1 w.2 with
  | none => none
  | some (r, t, rest) => some (r, (rest, t))

/-- A world in which the outcome of every coming `safeRequest` call is fixed in advance;
it records the URL and the key of each call made. -/
structure Scripted where
  outcomes : List (Result (List FileEntry))
  calls : List (String × String)
deriving DecidableEq, Repr

/-- A `safeRequest` call in a scripted world: it returns the next fixed outcome. -/
def Scripted.fetch (url auth : String) (w : Scripted) :
    Option (Result (List FileEntry) × Scripted) :=
  match w.outcomes with
  | [] => none
  | r :: rs => some (r, ⟨rs, w.calls ++ [(url, auth)]⟩)

end JimakuFiles

/-! ## The colly scrapers : page loop -/

namespace Colly

/-- The loop `for page := 1; page <= maxPages; page++` of the three colly programs:
each iteration builds `url` from the page number, prints it, calls `c.Visit(url)`
followed by `c.Wait()`, and goes on whatever `Visit` returned (the error is logged in
the nyaa programs and dropped in the tokyo-tosho one). `Visit url w` gives whether
`Visit` returned an error and the world after the visit. The state holds the world and
the URLs handed to `Visit` so far. The first argument bounds the number of tests of the
loop condition; the result is `none` when it is used up before the loop ends.
`page` is a Go `int`; the bounds of the source are the constants 10 and 300, so `page++`
stays far from the end of the `int` range and is `page + 1` here. -/
def pageLoop {W : Type} (template : Int → String) (Visit : String → W → Bool × W)
    (maxPages : Int) : Nat → Int → W × List String → Option (W × List String)
  | 0, _, _ => none
  | fuel + 1, page, (w, visited) =>
    if page ≤ maxPages then
      let url := template page
      let w := (Visit url w).2
      pageLoop template Visit maxPages fuel (page + 1) (w, visited ++ [url])
    else
      some (w, visited)

/-- The URL `fmt.Sprintf("https://nyaa.land/?f=0&c=1_0&q=&p=%d", page)` of
`nyaa-scraper/main.go` and `nyaa-land.go`. -/
def nyaaURL (page : Int) : String :=
  "https://nyaa.land/?f=0&c=1_0&q=&p=" ++ toString page

/-- The URL `fmt.Sprintf("https://www.tokyo-tosho.net/?cat=1&page=%d", page)` of
`util/nyaa-scraper/main.go`. -/
def toshoURL (page : Int) : String :=
  "https://www.tokyo-tosho.net/?cat=1&page=" ++ toString page

/-- The URLs `template 1`, ..., `template maxPages`, in this order. -/
def pagesUpTo (template : Int → String) (maxPages : Int) : List String :=
  (List.range maxPages.toNat).map (fun (i : Nat) => template ((i : Int) + 1))

/-- The world after visiting the given URLs one after the other. -/
def visitAll {W : Type} (Visit : String → W → Bool × W) (urls : List String) (w : W) : W :=
  urls.foldl (fun w url => (Visit url w).2) w

end Colly

/-! ## The colly scrapers : `OnHTML` callbacks -/

namespace NyaaScraper

/-- The `OnHTML("table tbody tr", ...)` callback of `nyaa-scraper/main.go`: `title` is
the text `e.ChildText(...)` returned for the row, `file` the strings written so far. -/
def onRow (title : List Char) (file : List (List Char)) : List (List Char) :=
  if title ≠ [] then file ++ [title ++ ['\n']] else file

end NyaaScraper

namespace NyaaLand

/-- The class `\d` of Go regular expressions: the ASCII digits. -/
def isDigit (c : Char) : Bool := 48 ≤ c.toNat && c.toNat ≤ 57

/-- The call `leadingDigits.ReplaceAllString(title, "")` for the expression `^\d+`: the
only match starts at the beginning of the text and takes every digit there. -/
def removeLeadingDigits (title : List Char) : List Char := title.dropWhile isDigit

/-- The function `unicode.IsSpace`: the code points with the White_Space property. -/
def IsSpace (c : Char) : Bool :=
  let r := c.toNat
  (0x09 ≤ r && r ≤ 0x0D) || r == 0x20 || r == 0x85 || r == 0xA0 || r == 0x1680 ||
    (0x2000 ≤ r && r ≤ 0x200A) || r == 0x2028 || r == 0x2029 || r == 0x202F ||
    r == 0x205F || r == 0x3000

/-- The function `strings.TrimSpace`: leading and trailing white space removed. -/
def TrimSpace (s : List Char) : List Char := (s.dropWhile IsSpace).rdropWhile IsSpace

/-- The cleaned title of the callback:
`strings.TrimSpace(leadingDigits.ReplaceAllString(title, ""))`. -/
def cleanTitle (title : List Char) : List Char := TrimSpace (removeLeadingDigits title)

/-- The `OnHTML("table tbody tr", ...)` callback of `nyaa-land.go`. -/
def onRow (title : List Char) (file : List (List Char)) : List (List Char) :=
  if title ≠ [] then
    let title := cleanTitle title
    file ++ [title ++ ['\n']]
  else file

/-- Whether a text begins with an ASCII digit. -/
def beginsWithDigit : List Char → Bool
  | [] => false
  | c :: _ => isDigit c

end NyaaLand

namespace Tosho

/-- The variable `videoExt` of `util/nyaa-scraper/main.go`. -/
def videoExt : List (List Char) :=
  [".mkv".toList, ".mp4".toList, ".avi".toList, ".mov".toList, ".wmv".toList,
   ".flv".toList, ".webm".toList, ".mpg".toList, ".mpeg".toList]

/-- The function `unicode.ToLower`, given on the code points that it maps to or from
ASCII: the letters A to Z, U+0130 (capital I with dot above) and U+212A (Kelvin sign).
Go sends each other code point to a code point outside ASCII; it is left unchanged here,
which alters no comparison with the ASCII texts of `videoExt`. -/
def toLowerRune (c : Char) : Char :=
  if 65 ≤ c.toNat ∧ c.toNat ≤ 90 then Char.ofNat (c.toNat + 32)
  else if c.toNat = 0x130 then 'i'
  else if c.toNat = 0x212A then 'k'
  else c

/-- The function `unicode.ToUpper`, given on the code points that it maps to or from
ASCII: the letters a to z, U+0131 (dotless i) and U+017F (long s). Each other code point
is left unchanged here, as for `toLowerRune`. -/
def toUpperRune (c : Char) : Char :=
  if 97 ≤ c.toNat ∧ c.toNat ≤ 122 then Char.ofNat (c.toNat - 32)
  else if c.toNat = 0x131 then 'I'
  else if c.toNat = 0x17F then 'S'
  else c

/-- The function `strings.ToLower`. -/
def ToLower (s : List Char) : List Char := s.map toLowerRune

/-- The function `strings.ToUpper`. -/
def ToUpper (s : List Char) : List Char := s.map toUpperRune

/-- The function `strings.Contains(s, substr)`. -/
def Contains (s substr : List Char) : Bool := decide (substr <:+: s)

/-- The loop `for _, ext := range videoExt` of `isVideo`, over the extensions still to
be tried. -/
def isVideoLoop (lower : List Char) : List (List Char) → Bool
  | [] => false
  | ext :: exts => if Contains lower ext then true else isVideoLoop lower exts

/-- The function `isVideo`. -/
def isVideo (title : List Char) : Bool :=
  let lower := ToLower title
  isVideoLoop lower videoExt

/-- The `OnHTML("td.desc-top a", ...)` callback of `util/nyaa-scraper/main.go`: `title`
is `e.Text`, `file` the strings written so far. -/
def onLink (title : List Char) (file : List (List Char)) : List (List Char) :=
  if title ≠ [] && isVideo title then file ++ [title ++ ['\n']] else file

end Tosho

namespace JimakuFiles

/-! ## `float64` : lemmas -/

/-- The binary digits of a positive number bracket it between two powers of two. -/
theorem bitLength_spec (fuel : Nat) :
    ∀ n : Nat, n ≤ fuel → n ≠ 0 →
      1 ≤ bitLength fuel n ∧ 2 ^ (bitLength fuel n - 1) ≤ n ∧ n < 2 ^ bitLength fuel n := by
  induction fuel with
  | zero => intro n h0 hn; omega
  | succ f ih =>
    intro n hle hn
    simp only [bitLength, hn, if_false]
    by_cases h2 : n / 2 = 0
    · have h1 : n = 1 := by omega
      subst h1
      have : bitLength f (1 / 2) = 0 := by
        cases f <;> simp [bitLength]
      simp [this]
    · obtain ⟨hk, hlo, hhi⟩ := ih (n / 2) (by omega) h2
      refine ⟨by omega, ?_, ?_⟩
      · have e1 : bitLength f (n / 2) + 1 - 1 = (bitLength f (n / 2) - 1) + 1 := by omega
        rw [e1, pow_succ]
        omega
      · rw [pow_succ]
        omega

/-- The power of two of `log2 n` is at most `n`, the next one is above it. -/
theorem log2_spec (n : Nat) (hn : n ≠ 0) : 2 ^ log2 n ≤ n ∧ n < 2 ^ (log2 n + 1) := by
  obtain ⟨hk, hlo, hhi⟩ := bitLength_spec n n (le_refl n) hn
  unfold log2
  refine ⟨hlo, ?_⟩
  have e1 : bitLength n n - 1 + 1 = bitLength n n := by omega
  rw [e1]
  exact hhi

/-- A number between two successive powers of two has the exponent of the lower one as
its `log2`. -/
theorem log2_eq (n L : Nat) (hlo : 2 ^ L ≤ n) (hhi : n < 2 ^ (L + 1)) : log2 n = L := by
  have hn : n ≠ 0 := by
    have := Nat.two_pow_pos L
    omega
  obtain ⟨h1, h2⟩ := log2_spec n hn
  by_contra hne
  rcases Nat.lt_or_gt_of_ne hne with hlt | hgt
  · have : 2 ^ (log2 n + 1) ≤ 2 ^ L := Nat.pow_le_pow_right (by norm_num) (by omega)
    omega
  · have : 2 ^ (L + 1) ≤ 2 ^ log2 n := Nat.pow_le_pow_right (by norm_num) (by omega)
    omega

/-- Multiplying by a power of two adds its exponent to `log2`. -/
theorem log2_mul_pow (M j : Nat) (hM : M ≠ 0) : log2 (M * 2 ^ j) = log2 M + j := by
  obtain ⟨h1, h2⟩ := log2_spec M hM
  apply log2_eq
  · rw [pow_add]
    exact Nat.mul_le_mul_right _ h1
  · have : 2 ^ (log2 M + j + 1) = 2 ^ (log2 M + 1) * 2 ^ j := by ring
    rw [this]
    exact Nat.mul_lt_mul_of_pos_right h2 (Nat.two_pow_pos _)

/-- The `log2` of a power of two is its exponent. -/
theorem log2_pow (j : Nat) : log2 (2 ^ j) = j := by
  apply log2_eq
  · exact le_refl _
  · exact Nat.pow_lt_pow_right (by norm_num) (by omega)

/-- A fraction that is a whole number rounds to that number. -/
theorem roundHalfEven_mul (k b : Nat) (hb : 0 < b) : roundHalfEven (k * b) b = k := by
  unfold roundHalfEven
  simp [Nat.mul_div_cancel _ hb, hb]

/-- A whole number `M` whose significand fits 53 bits is a `float64`: the rounding of
the fraction `M * 2 ^ j / 2 ^ j` is exact. -/
theorem nearestFloat64_exact (neg : Bool) (M j : Nat) (hM : M ≠ 0)
    (hdiv : 2 ^ (log2 M - 52) ∣ M) :
    nearestFloat64 neg (M * 2 ^ j) (2 ^ j) =
      ⟨neg, M / 2 ^ (log2 M - 52) * 2 ^ (52 - log2 M), (log2 M : Int) - 52⟩ := by
  obtain ⟨hlo, -⟩ := log2_spec M hM
  have hpos : 0 < 2 ^ j := Nat.two_pow_pos _
  have ha : M * 2 ^ j ≠ 0 := Nat.mul_ne_zero hM (by omega)
  have hposs : 0 < 2 ^ (log2 M - 52) := Nat.two_pow_pos _
  obtain ⟨c, hc⟩ : ∃ c, c = M / 2 ^ (log2 M - 52) := ⟨_, rfl⟩
  have hcM : c * 2 ^ (log2 M - 52) = M := by rw [hc]; exact Nat.div_mul_cancel hdiv
  unfold nearestFloat64
  rw [if_neg ha, log2_mul_pow M j hM, log2_pow]
  have hd : ((log2 M + j : Nat) : Int) - (j : Int) = (log2 M : Int) := by push_cast; ring
  simp only [hd]
  have t1 : ((log2 M : Nat) : Int).toNat = log2 M := Int.toNat_natCast _
  have t2 : (-((log2 M : Nat) : Int)).toNat = 0 := by omega
  have hcond : 2 ^ j * 2 ^ log2 M ≤ M * 2 ^ j * 2 ^ 0 := by
    rw [pow_zero, mul_one, mul_comm]
    exact Nat.mul_le_mul_right _ hlo
  simp only [t1, t2, hcond, if_true]
  have t3 : (-(((log2 M : Nat) : Int) - 52)).toNat = 52 - log2 M := by omega
  have t4 : (((log2 M : Nat) : Int) - 52).toNat = log2 M - 52 := by omega
  simp only [t3, t4]
  have hfrac : M * 2 ^ j * 2 ^ (52 - log2 M) =
      (c * 2 ^ (52 - log2 M)) * (2 ^ j * 2 ^ (log2 M - 52)) := by
    calc M * 2 ^ j * 2 ^ (52 - log2 M)
        = (c * 2 ^ (log2 M - 52)) * 2 ^ j * 2 ^ (52 - log2 M) := by rw [hcM]
      _ = (c * 2 ^ (52 - log2 M)) * (2 ^ j * 2 ^ (log2 M - 52)) := by ring
  rw [hfrac, roundHalfEven_mul _ _ (Nat.mul_pos hpos hposs), ← hc]

/-- Converting such a `float64` to `int64` gives the whole number back. -/
theorem Duration_exact (M : Nat) (hdiv : 2 ^ (log2 M - 52) ∣ M) (hrange : M < 2 ^ 63) :
    Duration ⟨false, M / 2 ^ (log2 M - 52) * 2 ^ (52 - log2 M), (log2 M : Int) - 52⟩ = M := by
  have hpos2 : 0 < 2 ^ (52 - log2 M) := Nat.two_pow_pos _
  obtain ⟨c, hc⟩ : ∃ c, c = M / 2 ^ (log2 M - 52) := ⟨_, rfl⟩
  have hcM : c * 2 ^ (log2 M - 52) = M := by rw [hc]; exact Nat.div_mul_cancel hdiv
  have t3 : (-(((log2 M : Nat) : Int) - 52)).toNat = 52 - log2 M := by omega
  have t4 : (((log2 M : Nat) : Int) - 52).toNat = log2 M - 52 := by omega
  have hval : c * 2 ^ (52 - log2 M) * 2 ^ (log2 M - 52) / 2 ^ (52 - log2 M) = M := by
    have : c * 2 ^ (52 - log2 M) * 2 ^ (log2 M - 52) = M * 2 ^ (52 - log2 M) := by
      calc c * 2 ^ (52 - log2 M) * 2 ^ (log2 M - 52)
          = (c * 2 ^ (log2 M - 52)) * 2 ^ (52 - log2 M) := by ring
        _ = M * 2 ^ (52 - log2 M) := by rw [hcM]
    rw [this, Nat.mul_div_cancel _ hpos2]
  unfold Duration
  simp only [t3, t4, ← hc, hval]
  norm_num at hrange
  have h1 : (-2 : Int) ^ 63 ≤ (M : Int) := by
    have : (0 : Int) ≤ (M : Int) := Int.natCast_nonneg _
    norm_num
    omega
  have h2 : (M : Int) < 2 ^ 63 := by norm_num; omega
  simp only [Bool.false_eq_true, if_false]
  rw [if_pos ⟨h1, h2⟩]

/-- A positive number below a power of two has a smaller `log2` than its exponent. -/
theorem log2_lt (n k : Nat) (hn : n ≠ 0) (h : n < 2 ^ k) : log2 n < k := by
  obtain ⟨hlo, -⟩ := log2_spec n hn
  by_contra hge
  have : 2 ^ k ≤ 2 ^ log2 n := Nat.pow_le_pow_right (by norm_num) (by omega)
  omega

/-- The parsed value of a whole number of seconds below two to the 53 is that number. -/
theorem ParseFloat_whole (n : Nat) (hn : n ≠ 0) (hlt : n < 2 ^ 53) :
    (ParseFloat (.seconds ⟨false, n, 0⟩)).1 =
      ⟨false, n * 2 ^ (52 - log2 n), (log2 n : Int) - 52⟩ := by
  have hL : log2 n < 53 := log2_lt n 53 hn hlt
  have h0 : log2 n - 52 = 0 := by omega
  have hexact := nearestFloat64_exact false n 0 hn (by rw [h0]; exact one_dvd _)
  rw [h0] at hexact
  simp only [pow_zero, mul_one, Nat.div_one] at hexact
  simp only [ParseFloat, Int.toNat_zero, neg_zero, pow_zero, mul_one]
  exact hexact

/-- A header that declares a whole number of seconds, at most 4611686018, is slept for
exactly that many seconds: the number and its count of nanoseconds are both exact in
`float64`. -/
theorem backoff_whole_seconds (n : Nat) (hn : n ≤ 4611686018) :
    backoff (.seconds ⟨false, n, 0⟩) = (n : Int) * 1000000000 := by
  by_cases h0 : n = 0
  · subst h0
    rfl
  · have hlt : n < 2 ^ 53 := by norm_num; omega
    have hL : log2 n < 53 := log2_lt n 53 h0 hlt
    have hM : n * 1000000000 ≠ 0 := Nat.mul_ne_zero h0 (by norm_num)
    have hM62 : n * 1000000000 < 2 ^ 62 := by norm_num; omega
    have hL' : log2 (n * 1000000000) < 62 := log2_lt _ 62 hM hM62
    have hdiv : 2 ^ (log2 (n * 1000000000) - 52) ∣ n * 1000000000 := by
      have h1 : 2 ^ (log2 (n * 1000000000) - 52) ∣ 2 ^ 9 :=
        Nat.pow_dvd_pow 2 (by omega)
      have h2 : 2 ^ 9 ∣ n * 1000000000 :=
        Dvd.dvd.mul_left (by norm_num) n
      exact Nat.dvd_trans h1 h2
    have hprod := nearestFloat64_exact false (n * 1000000000) (52 - log2 n) hM hdiv
    have t1 : (((log2 n : Nat) : Int) - 52 + 0).toNat = 0 := by omega
    have t2 : (-(((log2 n : Nat) : Int) - 52 + 0)).toNat = 52 - log2 n := by omega
    have harg : n * 2 ^ (52 - log2 n) * 1000000000 * 2 ^ 0 =
        n * 1000000000 * 2 ^ (52 - log2 n) := by ring
    unfold backoff
    rw [ParseFloat_whole n h0 hlt]
    simp only [Float64.mul, float64Second, t1, t2, bne_self_eq_false, harg]
    rw [hprod, Duration_exact _ hdiv (by norm_num; omega)]
    push_cast
    ring

/-! ## `safeRequest` : lemmas -/

/-- A run of 429 responses is consumed one request and one sleep at a time. -/
theorem safeRequest_skip_429 {α : Type} (Decode : String → Except String α)
    (url auth : String) (rs : List Response) (h429 : ∀ r ∈ rs, r.StatusCode = 429)
    (rest : List RoundTrip) (t : Trace) :
    safeRequest Decode url auth (rs.map RoundTrip.answered ++ rest) t =
      safeRequest Decode url auth rest
        ⟨t.requests ++ List.replicate rs.length (requestOf url auth),
         t.sleeps ++ rs.map (fun r => backoff r.resetAfter)⟩ := by
  induction rs generalizing t with
  | nil => simp
  | cons r rs ih =>
    have hr : r.StatusCode = 429 := h429 r (List.mem_cons_self _ _)
    have hrs : ∀ x ∈ rs, x.StatusCode = 429 := fun x hx => h429 x (List.mem_cons_of_mem _ hx)
    have key := ih hrs
      ⟨t.requests ++ [requestOf url auth], t.sleeps ++ [backoff r.resetAfter]⟩
    simp only [List.map_cons, List.cons_append, safeRequest, hr, if_true]
    refine Eq.trans key ?_
    simp [List.replicate_succ, List.append_assoc]

/-- Sleeping for non-negative durations takes their sum. -/
theorem slept_of_nonneg (reqs : List Request) (ds : List Int) (h : ∀ d ∈ ds, 0 ≤ d) :
    Trace.slept ⟨reqs, ds⟩ = ds.sum := by
  unfold Trace.slept
  induction ds with
  | nil => rfl
  | cons d ds ih =>
    have hd : 0 ≤ d := h d (List.mem_cons_self _ _)
    have := ih (fun x hx => h x (List.mem_cons_of_mem _ hx))
    simp only [List.map_cons, List.sum_cons] at this ⊢
    rw [this, max_eq_left hd]

/-- The trace of a run that starts from the empty trace and meets only 429 responses
before its last request. -/
theorem safeRequest_skip_429_empty {α : Type} (Decode : String → Except String α)
    (url auth : String) (rs : List Response) (h429 : ∀ r ∈ rs, r.StatusCode = 429)
    (rest : List RoundTrip) :
    safeRequest Decode url auth (rs.map RoundTrip.answered ++ rest) Trace.empty =
      safeRequest Decode url auth rest
        ⟨List.replicate rs.length (requestOf url auth),
         rs.map (fun r => backoff r.resetAfter)⟩ := by
  rw [safeRequest_skip_429 Decode url auth rs h429 rest Trace.empty]
  simp [Trace.empty]

/-- A response that is not a 429 ends the loop: one more request, no sleep. -/
theorem safeRequest_answer_returns {α : Type} (Decode : String → Except String α)
    (url auth : String) (resp : Response) (rest : List RoundTrip) (t : Trace)
    (hne : resp.StatusCode ≠ 429) :
    ∃ res : Result α,
      safeRequest Decode url auth (.answered resp :: rest) t =
        some (res, ⟨t.requests ++ [requestOf url auth], t.sleeps⟩, rest) := by
  by_cases h200 : resp.StatusCode = 200
  · cases hd : Decode resp.Body with
    | error cause => exact ⟨.err (.decode cause), by simp [safeRequest, requestOf, h200, hd]⟩
    | ok payload => exact ⟨.ok payload, by simp [safeRequest, requestOf, h200, hd]⟩
  · exact ⟨.err (.status resp.StatusCode), by simp [safeRequest, requestOf, hne, h200]⟩

/-! ## `safeRequest` : the claims -/

set_option maxRecDepth 20000 in
/-- C1, as stated, fails. With a declared value of minus one second, `safeRequest`
returns the 200 payload having slept for no time at all. With a declared value of 8.2
seconds it sleeps for 8199999999 nanoseconds, one less than declared: 8.2 is not a
`float64`, and the product of the nearest one with 1e9 falls below 8200000000. And with
a 200 response whose body is not JSON it returns an error although the 429 before it
carried a value. -/
theorem safeRequest_backoff_counterexample :
    (safeRequest sampleDecode "u" "k"
        [.answered ⟨429, .seconds ⟨true, 1, 0⟩, ""⟩, .answered ⟨200, .absent, "[]"⟩]
        Trace.empty
      = some (.ok [], ⟨[requestOf "u" "k", requestOf "u" "k"], [-1000000000]⟩, [])
      ∧ Trace.slept ⟨[requestOf "u" "k", requestOf "u" "k"], [-1000000000]⟩ = 0)
    ∧ (safeRequest sampleDecode "u" "k"
        [.answered ⟨429, .seconds ⟨false, 82, -1⟩, ""⟩, .answered ⟨200, .absent, "[]"⟩]
        Trace.empty
      = some (.ok [], ⟨[requestOf "u" "k", requestOf "u" "k"], [8199999999]⟩, [])
      ∧ Trace.slept ⟨[requestOf "u" "k", requestOf "u" "k"], [8199999999]⟩ = 8199999999
      ∧ (8199999999 : Int) ≠ 82 * 100000000)
    ∧ safeRequest sampleDecode "u" "k"
        [.answered ⟨429, .seconds 1, ""⟩, .answered ⟨200, .absent, "<html>"⟩]
        Trace.empty
      = some (.err (.decode "invalid character"),
          ⟨[requestOf "u" "k", requestOf "u" "k"], [1000000000]⟩, []) := by
  decide

/-- C1, amended. For 429 responses that each carry a decimal reset-after value,
followed by a 200 response whose body decodes, `safeRequest` returns the decoded body
without error; for each 429 it hands to `time.Sleep` the duration
`time.Duration(seconds * float64(time.Second))` of the parsed value, in order, and the
time it slept is the sum of those durations, a negative one counting for nothing. When
every declared value is a whole number of seconds from 0 to 4611686018, that time is
exactly the sum of the declared values. -/
theorem safeRequest_backoff_then_ok {α : Type} (Decode : String → Except String α)
    (url auth : String) (declared : List (Decimal × String)) (header : ResetAfter)
    (body : String) (payload : α) (rest : List RoundTrip)
    (hdec : Decode body = .ok payload) :
    ∃ t : Trace,
      safeRequest Decode url auth
          (declared.map (fun d => RoundTrip.answered ⟨429, .seconds d.1, d.2⟩)
            ++ .answered ⟨200, header, body⟩ :: rest) Trace.empty
        = some (.ok payload, t, rest)
      ∧ t.sleeps = declared.map (fun d => backoff (.seconds d.1))
      ∧ t.slept = (declared.map (fun d => max (backoff (.seconds d.1)) 0)).sum
      ∧ ((∀ d ∈ declared, d.1.neg = false ∧ d.1.exp10 = 0 ∧ d.1.mant ≤ 4611686018) →
          t.slept = (declared.map (fun d => (d.1.mant : Int) * 1000000000)).sum) := by
  have h429 : ∀ r ∈ declared.map (fun d => (⟨429, .seconds d.1, d.2⟩ : Response)),
      r.StatusCode = 429 := by
    intro r hr
    obtain ⟨d, -, rfl⟩ := List.mem_map.1 hr
    rfl
  have hrun := safeRequest_skip_429_empty Decode url auth _ h429
    (.answered ⟨200, header, body⟩ :: rest)
  simp only [List.map_map, List.length_map] at hrun
  have hfun : ((fun r : Response => backoff r.resetAfter) ∘
      fun d : Decimal × String => (⟨429, .seconds d.1, d.2⟩ : Response)) =
      fun d => backoff (.seconds d.1) := by
    funext d; rfl
  have hmap : (RoundTrip.answered ∘
      fun d : Decimal × String => (⟨429, .seconds d.1, d.2⟩ : Response)) =
      fun d => RoundTrip.answered ⟨429, .seconds d.1, d.2⟩ := by
    funext d; rfl
  rw [hfun, hmap] at hrun
  refine ⟨⟨List.replicate declared.length (requestOf url auth) ++ [requestOf url auth],
    declared.map (fun d => backoff (.seconds d.1))⟩, ?_, ?_, ?_, ?_⟩
  · rw [hrun]
    simp [safeRequest, hdec, requestOf]
  · simp only
  · simp only [Trace.slept, List.map_map, Function.comp_def]
  · intro hwhole
    have hsleeps : declared.map (fun d => backoff (.seconds d.1)) =
        declared.map (fun d => (d.1.mant : Int) * 1000000000) := by
      refine List.map_congr_left ?_
      intro d hd
      obtain ⟨hneg, hexp, hmant⟩ := hwhole d hd
      obtain ⟨⟨neg, mant, exp10⟩, text⟩ := d
      simp only at hneg hexp hmant
      subst hneg hexp
      exact backoff_whole_seconds mant hmant
    rw [hsleeps]
    apply slept_of_nonneg
    intro x hx
    obtain ⟨d, -, rfl⟩ := List.mem_map.1 hx
    exact Int.mul_nonneg (Int.natCast_nonneg _) (by norm_num)

/-- A run of C1, amended: two 429 responses declaring 5 and 8 seconds, then a 200. -/
theorem safeRequest_backoff_then_ok_witness :
    sampleDecode "[]" = .ok [] ∧
    ∃ t : Trace,
      safeRequest sampleDecode "u" "k"
          ([((5 : Decimal), ""), (8, "")].map
              (fun d => RoundTrip.answered ⟨429, .seconds d.1, d.2⟩)
            ++ .answered ⟨200, .absent, "[]"⟩ :: []) Trace.empty
        = some (.ok [], t, [])
      ∧ t.sleeps = [((5 : Decimal), ""), (8, "")].map (fun d => backoff (.seconds d.1))
      ∧ t.slept = ([((5 : Decimal), ""), (8, "")].map
          (fun d => max (backoff (.seconds d.1)) 0)).sum
      ∧ ((∀ d ∈ [((5 : Decimal), ""), (8, "")],
            d.1.neg = false ∧ d.1.exp10 = 0 ∧ d.1.mant ≤ 4611686018) →
          t.slept = ([((5 : Decimal), ""), (8, "")].map
            (fun d => (d.1.mant : Int) * 1000000000)).sum) :=
  ⟨rfl, safeRequest_backoff_then_ok sampleDecode "u" "k"
    [(5, ""), (8, "")] .absent "[]" [] [] rfl⟩

/-- C2, as stated, fails. A 429 response without the header, or with a header that is
not a number, makes `safeRequest` neither fail nor stop: it sleeps for a zero duration,
asks again and returns the 200 payload without error. -/
theorem safeRequest_unparsed_header_counterexample :
    safeRequest sampleDecode "u" "k"
        [.answered ⟨429, .absent, ""⟩, .answered ⟨200, .absent, "[]"⟩] Trace.empty
      = some (.ok [], ⟨[requestOf "u" "k", requestOf "u" "k"], [0]⟩, [])
    ∧ safeRequest sampleDecode "u" "k"
        [.answered ⟨429, .malformed "soon", ""⟩, .answered ⟨200, .absent, "[]"⟩] Trace.empty
      = some (.ok [], ⟨[requestOf "u" "k", requestOf "u" "k"], [0]⟩, []) := by
  decide

/-- C2, amended. For every 429 response whose reset-after header is absent or is not a
number (`ParseFloat` reports an error), `safeRequest` does not fail: it takes the wait
to be zero, hands a zero duration to `time.Sleep` and goes on with the next request. -/
theorem safeRequest_unparsed_header_retries {α : Type} (Decode : String → Except String α)
    (url auth : String) (resp : Response) (rest : List RoundTrip) (t : Trace)
    (h429 : resp.StatusCode = 429) (hbad : (ParseFloat resp.resetAfter).2 = true) :
    safeRequest Decode url auth (.answered resp :: rest) t =
      safeRequest Decode url auth rest
        ⟨t.requests ++ [requestOf url auth], t.sleeps ++ [0]⟩ := by
  obtain ⟨code, header, body⟩ := resp
  cases header with
  | absent =>
    have hzero : Duration ((⟨false, 0, 0⟩ : Float64).mul float64Second) = 0 := rfl
    simp_all [safeRequest, ParseFloat, requestOf]
  | malformed text =>
    have hzero : Duration ((⟨false, 0, 0⟩ : Float64).mul float64Second) = 0 := rfl
    simp_all [safeRequest, ParseFloat, requestOf]
  | seconds value => simp [ParseFloat] at hbad

/-- A run of C2, amended: a 429 response without the header, then a 200. -/
theorem safeRequest_unparsed_header_retries_witness :
    (⟨429, .absent, ""⟩ : Response).StatusCode = 429 ∧
    (ParseFloat (⟨429, .absent, ""⟩ : Response).resetAfter).2 = true ∧
    safeRequest sampleDecode "u" "k"
        (.answered ⟨429, .absent, ""⟩ :: [.answered ⟨200, .absent, "[]"⟩]) Trace.empty =
      safeRequest sampleDecode "u" "k" [.answered ⟨200, .absent, "[]"⟩]
        ⟨Trace.empty.requests ++ [requestOf "u" "k"], Trace.empty.sleeps ++ [0]⟩ :=
  ⟨rfl, rfl, safeRequest_unparsed_header_retries sampleDecode "u" "k" ⟨429, .absent, ""⟩
    [.answered ⟨200, .absent, "[]"⟩] Trace.empty rfl rfl⟩

/-- C3. For every response whose status is a 4xx code other than 429, `safeRequest`
issues exactly one request, does not sleep, and returns an error without asking again:
the outcomes after that response are left unused. -/
theorem safeRequest_client_error_once {α : Type} (Decode : String → Except String α)
    (url auth : String) (resp : Response) (rest : List RoundTrip)
    (h4xx : 400 ≤ resp.StatusCode ∧ resp.StatusCode < 500)
    (hne : resp.StatusCode ≠ 429) :
    safeRequest Decode url auth (.answered resp :: rest) Trace.empty =
      some (.err (.status resp.StatusCode), ⟨[⟨"GET", url, auth⟩], []⟩, rest) := by
  have h200 : resp.StatusCode ≠ 200 := by omega
  simp [safeRequest, hne, h200, Trace.empty]

/-- A run of C3: a 404 response, with a 200 response that is never asked for. -/
theorem safeRequest_client_error_once_witness :
    (400 ≤ (⟨404, .absent, ""⟩ : Response).StatusCode ∧
      (⟨404, .absent, ""⟩ : Response).StatusCode < 500) ∧
    (⟨404, .absent, ""⟩ : Response).StatusCode ≠ 429 ∧
    safeRequest sampleDecode "u" "k"
        (.answered ⟨404, .absent, ""⟩ :: [.answered ⟨200, .absent, "[]"⟩]) Trace.empty =
      some (.err (.status (⟨404, .absent, ""⟩ : Response).StatusCode),
        ⟨[⟨"GET", "u", "k"⟩], []⟩, [.answered ⟨200, .absent, "[]"⟩]) :=
  ⟨by decide, by decide, safeRequest_client_error_once sampleDecode "u" "k"
    ⟨404, .absent, ""⟩ [.answered ⟨200, .absent, "[]"⟩] (by decide) (by decide)⟩

/-- C4, as stated, fails. A 500 response followed by a 200 response yields the error of
the 500, after one request, and the 200 response is never asked for; the same holds for
a transport failure followed by a 200 response. -/
theorem safeRequest_server_error_counterexample :
    safeRequest sampleDecode "u" "k"
        [.answered ⟨500, .absent, ""⟩, .answered ⟨200, .absent, "[]"⟩] Trace.empty
      = some (.err (.status 500), ⟨[requestOf "u" "k"], []⟩,
          [.answered ⟨200, .absent, "[]"⟩])
    ∧ safeRequest sampleDecode "u" "k"
        [.failed "connection reset", .answered ⟨200, .absent, "[]"⟩] Trace.empty
      = some (.err (.transport "connection reset"), ⟨[requestOf "u" "k"], []⟩,
          [.answered ⟨200, .absent, "[]"⟩]) := by
  decide

/-- C4, amended. When an attempt (the first one, or one that follows 429 responses) ends
in a 5xx status or in a transport-level failure, `safeRequest` does not retry: it
returns an error at once and leaves the later outcomes, a 200 response included,
unused. -/
theorem safeRequest_server_error_no_retry {α : Type} (Decode : String → Except String α)
    (url auth : String) (before : List Response) (attempt : RoundTrip)
    (rest : List RoundTrip) (h429 : ∀ r ∈ before, r.StatusCode = 429)
    (hbad : (∃ cause, attempt = .failed cause) ∨
      ∃ resp, attempt = .answered resp ∧ 500 ≤ resp.StatusCode ∧ resp.StatusCode < 600) :
    ∃ e : FetchError,
      safeRequest Decode url auth (before.map RoundTrip.answered ++ attempt :: rest)
          Trace.empty
        = some (.err e,
            ⟨List.replicate (before.length + 1) (requestOf url auth),
             before.map (fun r => backoff r.resetAfter)⟩, rest) := by
  rw [safeRequest_skip_429_empty Decode url auth before h429]
  rcases hbad with ⟨cause, rfl⟩ | ⟨resp, rfl, hlo, hhi⟩
  · exact ⟨.transport cause, by simp [safeRequest, requestOf, List.replicate_succ']⟩
  · have h1 : resp.StatusCode ≠ 429 := by omega
    have h2 : resp.StatusCode ≠ 200 := by omega
    exact ⟨.status resp.StatusCode, by
      simp [safeRequest, requestOf, h1, h2, List.replicate_succ']⟩

/-- A run of C4, amended: a 429 response, then a 503 response, then a 200 response that
is never asked for. -/
theorem safeRequest_server_error_no_retry_witness :
    (∀ r ∈ [(⟨429, .seconds 5, ""⟩ : Response)], r.StatusCode = 429) ∧
    ∃ e : FetchError,
      safeRequest sampleDecode "u" "k"
          ([(⟨429, .seconds 5, ""⟩ : Response)].map RoundTrip.answered
            ++ .answered ⟨503, .absent, ""⟩ :: [.answered ⟨200, .absent, "[]"⟩])
          Trace.empty
        = some (.err e,
            ⟨List.replicate ([(⟨429, .seconds 5, ""⟩ : Response)].length + 1)
              (requestOf "u" "k"),
             [(⟨429, .seconds 5, ""⟩ : Response)].map (fun r => backoff r.resetAfter)⟩,
            [.answered ⟨200, .absent, "[]"⟩]) :=
  ⟨by decide, safeRequest_server_error_no_retry sampleDecode "u" "k"
    [⟨429, .seconds 5, ""⟩] (.answered ⟨503, .absent, ""⟩) [.answered ⟨200, .absent, "[]"⟩]
    (by decide) (Or.inr ⟨⟨503, .absent, ""⟩, rfl, by decide, by decide⟩)⟩

/-- C8. Rate-limit retries are uncapped and leave the request unmodified: for every `k`,
after `k` consecutive 429 responses followed by one response that is not a 429,
`safeRequest` has issued exactly `k + 1` requests and returns, and each of those requests
is a GET for the same `url` with the same `Authorization` value `auth`. -/
theorem safeRequest_rate_limit_uncapped {α : Type} (Decode : String → Except String α)
    (url auth : String) (k : Nat) (limited : List Response) (last : Response)
    (rest : List RoundTrip) (hk : limited.length = k)
    (h429 : ∀ r ∈ limited, r.StatusCode = 429) (hlast : last.StatusCode ≠ 429) :
    ∃ (res : Result α) (t : Trace),
      safeRequest Decode url auth (limited.map RoundTrip.answered ++ .answered last :: rest)
          Trace.empty
        = some (res, t, rest)
      ∧ t.requests = List.replicate (k + 1) ⟨"GET", url, auth⟩ := by
  subst hk
  rw [safeRequest_skip_429_empty Decode url auth limited h429]
  obtain ⟨res, hres⟩ := safeRequest_answer_returns Decode url auth last rest
    ⟨List.replicate limited.length (requestOf url auth),
     limited.map (fun r => backoff r.resetAfter)⟩ hlast
  exact ⟨res, _, hres, by simp [requestOf, List.replicate_succ']⟩

/-- A run of C8: three 429 responses (one of them without the header), then a 200. -/
theorem safeRequest_rate_limit_uncapped_witness :
    [(⟨429, .seconds 5, ""⟩ : Response), ⟨429, .absent, ""⟩, ⟨429, .seconds 7, ""⟩].length = 3 ∧
    ∃ (res : Result (List FileEntry)) (t : Trace),
      safeRequest sampleDecode "u" "k"
          ([(⟨429, .seconds 5, ""⟩ : Response), ⟨429, .absent, ""⟩, ⟨429, .seconds 7, ""⟩].map
              RoundTrip.answered ++ .answered ⟨200, .absent, "[]"⟩ :: []) Trace.empty
        = some (res, t, [])
      ∧ t.requests = List.replicate (3 + 1) ⟨"GET", "u", "k"⟩ :=
  ⟨rfl, safeRequest_rate_limit_uncapped sampleDecode "u" "k" 3
    [⟨429, .seconds 5, ""⟩, ⟨429, .absent, ""⟩, ⟨429, .seconds 7, ""⟩] ⟨200, .absent, "[]"⟩ []
    rfl (by decide) (by decide)⟩

/-! ## The entry loop of `main` -/

/-- The entry loop in a scripted world, from any point of the run. -/
theorem entryLoop_scripted_from (apiKey : String)
    (plan : List (Entry × Result (List FileEntry))) (calls : List (String × String))
    (file : List String) :
    entryLoop Scripted.fetch apiKey (plan.map Prod.fst) ⟨plan.map Prod.snd, calls⟩ file =
      some (⟨[], calls ++ plan.map (fun p => (filesURL p.1.ID, apiKey))⟩,
        file ++ plan.flatMap (fun p =>
          match p.2 with
          | .ok files => files.map (fun f => f.Name ++ "\n")
          | .err _ => [])) := by
  induction plan generalizing calls file with
  | nil => simp [entryLoop]
  | cons p plan ih =>
    obtain ⟨entry, outcome⟩ := p
    cases outcome with
    | ok files =>
      simp only [List.map_cons, entryLoop, Scripted.fetch]
      rw [ih]
      simp [fileLines, List.append_assoc]
    | err e =>
      simp only [List.map_cons, entryLoop, Scripted.fetch]
      rw [ih]
      simp [fileLines, List.append_assoc]

/-- C5. For every list of entries and every outcome given to the `safeRequest` call of
each entry, the entry loop of `main` calls `safeRequest` once per entry, in list order
and with the URL of that entry, whatever the earlier outcomes were, and the lines
written to the file are exactly, in entry order and in file order within an entry, the
names (each followed by a newline) of the files of the entries whose call succeeded; an
entry whose call returned an error contributes no line and does not stop the loop. -/
theorem entryLoop_visits_every_entry (apiKey : String)
    (plan : List (Entry × Result (List FileEntry))) :
    entryLoop Scripted.fetch apiKey (plan.map Prod.fst) ⟨plan.map Prod.snd, []⟩ [] =
      some (⟨[], plan.map (fun p => (filesURL p.1.ID, apiKey))⟩,
        plan.flatMap (fun p =>
          match p.2 with
          | .ok files => files.map (fun f => f.Name ++ "\n")
          | .err _ => [])) := by
  simpa using entryLoop_scripted_from apiKey plan [] []

set_option maxRecDepth 20000 in
/-- The entry loop over `safeRequest` itself: the first entry has two files, the second
is rate limited once and then has one file, the third meets a 500 response and is
skipped, and the fourth, after it, is still processed. -/
theorem entryLoop_safeRequest_run :
    entryLoop (safeRequestIn sampleDecode) ""
        [⟨1, "a"⟩, ⟨2, "b"⟩, ⟨3, "c"⟩, ⟨4, "d"⟩]
        ([.answered ⟨200, .absent, "[\x7b\"name\":\"a.srt\"\x7d]"⟩,
          .answered ⟨429, .seconds 2, ""⟩,
          .answered ⟨200, .absent, "[\x7b\"name\":\"a.srt\"\x7d]"⟩,
          .answered ⟨500, .absent, ""⟩,
          .answered ⟨200, .absent, "[]"⟩], Trace.empty) []
      = some (([], ⟨[requestOf (filesURL 1) "", requestOf (filesURL 2) "",
                requestOf (filesURL 2) "", requestOf (filesURL 3) "",
                requestOf (filesURL 4) ""], [2000000000]⟩),
          ["a.srt\n", "a.srt\n"]) := by
  decide

end JimakuFiles

/-! ## The page loop of the colly scrapers -/

namespace Colly

/-- The page loop from any page: with `n` pages left and more than `n` tests of the
condition allowed, it visits those `n` pages in increasing order and ends. -/
theorem pageLoop_from {W : Type} (template : Int → String) (Visit : String → W → Bool × W)
    (maxPages : Int) (n : Nat) :
    ∀ (fuel : Nat) (page : Int) (w : W) (visited : List String),
      page + n = maxPages + 1 → n < fuel →
      pageLoop template Visit maxPages fuel page (w, visited) =
        some (visitAll Visit ((List.range n).map (fun (i : Nat) => template (page + (i : Int)))) w,
          visited ++ (List.range n).map (fun (i : Nat) => template (page + (i : Int)))) := by
  induction n with
  | zero =>
    intro fuel page w visited hpage hfuel
    obtain ⟨f, rfl⟩ := Nat.exists_eq_succ_of_ne_zero (Nat.pos_iff_ne_zero.1 hfuel)
    have hgt : ¬ page ≤ maxPages := by omega
    simp [pageLoop, hgt, visitAll]
  | succ n ih =>
    intro fuel page w visited hpage hfuel
    obtain ⟨f, rfl⟩ := Nat.exists_eq_succ_of_ne_zero (Nat.pos_iff_ne_zero.1 (by omega : 0 < fuel))
    have hle : page ≤ maxPages := by omega
    have hstep := ih f (page + 1) (Visit (template page) w).2 (visited ++ [template page])
      (by push_cast at hpage ⊢; omega) (by omega)
    have hurls : (List.range (n + 1)).map (fun (i : Nat) => template (page + (i : Int))) =
        template page :: (List.range n).map (fun (i : Nat) => template (page + 1 + (i : Int))) := by
      rw [List.range_succ_eq_map, List.map_cons, List.map_map]
      refine congrArg₂ _ (by simp) (List.map_congr_left ?_)
      intro i _
      simp only [Function.comp_apply, Nat.succ_eq_add_one]
      congr 1
      push_cast
      ring
    simp only [pageLoop, hle, if_true]
    rw [hstep, hurls]
    simp [visitAll, List.append_assoc]

/-- C6. For every page bound `maxPages >= 0` and every URL template (that of the nyaa
programs and that of the tokyo-tosho program alike), the page loop hands to `Visit`
exactly the URLs `template 1`, ..., `template maxPages`, each once and in increasing
page order, going on to the next page whatever each `Visit` returned, and then ends;
with `maxPages = 0` it visits nothing and leaves the world untouched. It ends as soon as
the loop condition may be tested `maxPages + 1` times. -/
theorem pageLoop_visits_pages_in_order {W : Type} (template : Int → String)
    (Visit : String → W → Bool × W) (maxPages : Int) (fuel : Nat) (w : W)
    (hbound : 0 ≤ maxPages) (hfuel : maxPages.toNat < fuel) :
    pageLoop template Visit maxPages fuel 1 (w, []) =
        some (visitAll Visit (pagesUpTo template maxPages) w, pagesUpTo template maxPages)
      ∧ (maxPages = 0 → pageLoop template Visit maxPages fuel 1 (w, []) = some (w, [])) := by
  have hrun := pageLoop_from template Visit maxPages maxPages.toNat fuel 1 w []
    (by omega) hfuel
  have hurls : (List.range maxPages.toNat).map (fun (i : Nat) => template (1 + (i : Int))) =
      pagesUpTo template maxPages := by
    unfold pagesUpTo
    refine List.map_congr_left ?_
    intro i _
    rw [add_comm]
  rw [hurls, List.nil_append] at hrun
  refine ⟨hrun, ?_⟩
  intro h0
  subst h0
  rw [hrun]
  rfl

/-- A run of C6: three pages of the nyaa programs, the first `Visit` failing. -/
theorem pageLoop_visits_pages_in_order_witness :
    (0 : Int) ≤ 3 ∧ (3 : Int).toNat < 4 ∧
    (pageLoop nyaaURL (fun url (w : List String) => (w.isEmpty, w ++ [url])) 3 4 1 ([], []) =
        some (visitAll (fun url (w : List String) => (w.isEmpty, w ++ [url]))
            (pagesUpTo nyaaURL 3) [], pagesUpTo nyaaURL 3)
      ∧ ((3 : Int) = 0 →
          pageLoop nyaaURL (fun url (w : List String) => (w.isEmpty, w ++ [url])) 3 4 1 ([], [])
            = some ([], []))) :=
  ⟨by decide, by decide, pageLoop_visits_pages_in_order nyaaURL
    (fun url (w : List String) => (w.isEmpty, w ++ [url])) 3 4 [] (by decide) (by decide)⟩

end Colly

/-! ## The `OnHTML` callbacks -/

namespace NyaaScraper

/-- The callback of `nyaa-scraper/main.go` writes at most one string, and what it writes
is a non-empty title followed by a newline. -/
theorem onRow_line_nonempty (title : List Char) (file : List (List Char)) :
    onRow title file = file ∨ (title ≠ [] ∧ onRow title file = file ++ [title ++ ['\n']]) := by
  unfold onRow
  by_cases h : title = []
  · exact Or.inl (by simp [h])
  · exact Or.inr ⟨h, by simp [h]⟩

end NyaaScraper

namespace NyaaLand

/-- C7, at the failing input. For a row whose title is `123`, the callback of
`nyaa-land.go` passes the test `title != ""`, cleans the title to the empty string and
writes a line that holds nothing but the newline. -/
theorem onRow_writes_empty_line :
    "123".toList ≠ [] ∧ cleanTitle "123".toList = [] ∧
      onRow "123".toList [] = [['\n']] := by
  decide

/-- What `dropWhile` leaves does not begin with an element that it drops. -/
theorem dropWhile_head_not {α : Type} (p : α → Bool) (l : List α) (a : α) (r : List α)
    (h : l.dropWhile p = a :: r) : p a = false := by
  induction l with
  | nil => simp at h
  | cons x xs ih =>
    by_cases hx : p x = true
    · rw [List.dropWhile_cons_of_pos hx] at h
      exact ih h
    · rw [List.dropWhile_cons_of_neg hx] at h
      obtain ⟨rfl, -⟩ := List.cons.inj h
      simpa using hx

/-- The title with its leading digits removed does not begin with a digit. -/
theorem removeLeadingDigits_no_digit (title : List Char) :
    beginsWithDigit (removeLeadingDigits title) = false := by
  cases h : removeLeadingDigits title with
  | nil => rfl
  | cons c r => exact dropWhile_head_not isDigit title c r h

/-- C9, as stated, fails. The title `1 2abc` loses its leading `1`, and trimming the
white space that follows it brings the digit `2` to the front of the cleaned title. -/
theorem cleanTitle_counterexample :
    cleanTitle "1 2abc".toList = "2abc".toList ∧
      beginsWithDigit (cleanTitle "1 2abc".toList) = true := by
  decide

/-- A digit is not white space. -/
theorem isDigit_not_space (c : Char) (h : isDigit c = true) : IsSpace c = false := by
  simp only [isDigit, Bool.and_eq_true, decide_eq_true_eq] at h
  simp only [IsSpace, Bool.or_eq_false_iff, Bool.and_eq_false_iff, decide_eq_false_iff_not,
    beq_eq_false_iff_ne, ne_eq]
  omega

/-- Dropping a prefix made of elements that are all dropped. -/
theorem dropWhile_append_all {α : Type} (p : α → Bool) (xs l : List α)
    (h : ∀ x ∈ xs, p x = true) : (xs ++ l).dropWhile p = l.dropWhile p := by
  induction xs with
  | nil => rfl
  | cons x xs ih =>
    rw [List.cons_append, List.dropWhile_cons_of_pos (h x (List.mem_cons_self _ _))]
    exact ih (fun y hy => h y (List.mem_cons_of_mem _ hy))

/-- Trimming at the end keeps a first character that is not white space. -/
theorem rdropWhile_cons_keep (d : Char) (rest : List Char) (hd : IsSpace d = false) :
    ∃ kept, (d :: rest).rdropWhile IsSpace = d :: kept := by
  obtain ⟨s, hs⟩ := List.rdropWhile_prefix IsSpace (d :: rest)
  cases hout : (d :: rest).rdropWhile IsSpace with
  | nil =>
    have hall := List.rdropWhile_eq_nil_iff.1 hout d (List.mem_cons_self _ _)
    rw [hd] at hall
    exact absurd hall (by decide)
  | cons x xs =>
    rw [hout] at hs
    obtain ⟨rfl, -⟩ := List.cons.inj hs
    exact ⟨xs, rfl⟩

/-- C9, amended. For every title, the cleaned title
`TrimSpace(leadingDigits.ReplaceAllString(title, ""))` begins with an ASCII digit
exactly when the title is made of leading digits (possibly none), then one or more white
space characters, then a digit, as `1 2abc` is; for every other title the cleaned title
does not begin with an ASCII digit. -/
theorem cleanTitle_begins_with_digit_iff (title : List Char) :
    beginsWithDigit (cleanTitle title) = true ↔
      ∃ (ds ws : List Char) (d : Char) (rest : List Char),
        title = ds ++ ws ++ d :: rest ∧ (∀ c ∈ ds, isDigit c = true) ∧ ws ≠ [] ∧
          (∀ c ∈ ws, IsSpace c = true) ∧ isDigit d = true := by
  constructor
  · intro hbegins
    unfold cleanTitle TrimSpace at hbegins
    obtain ⟨tail, htail⟩ := List.rdropWhile_prefix IsSpace
      ((removeLeadingDigits title).dropWhile IsSpace)
    cases hout : ((removeLeadingDigits title).dropWhile IsSpace).rdropWhile IsSpace with
    | nil => rw [hout] at hbegins; exact absurd hbegins (by decide)
    | cons d kept =>
      rw [hout] at hbegins htail
      have hd : isDigit d = true := hbegins
      have hsplit1 : title.takeWhile isDigit ++ removeLeadingDigits title = title :=
        List.takeWhile_append_dropWhile isDigit title
      have hsplit2 : (removeLeadingDigits title).takeWhile IsSpace ++
          (removeLeadingDigits title).dropWhile IsSpace = removeLeadingDigits title :=
        List.takeWhile_append_dropWhile IsSpace _
      refine ⟨title.takeWhile isDigit, (removeLeadingDigits title).takeWhile IsSpace, d,
        kept ++ tail, ?_, ?_, ?_, ?_, hd⟩
      · rw [List.append_assoc, ← List.cons_append, htail, hsplit2, hsplit1]
      · intro c hc
        exact (List.mem_takeWhile_imp hc)
      · intro hnil
        rw [hnil, List.nil_append] at hsplit2
        have hhead : removeLeadingDigits title = d :: (kept ++ tail) := by
          rw [← hsplit2, ← htail, List.cons_append]
        have := dropWhile_head_not isDigit title d (kept ++ tail) hhead
        rw [hd] at this
        exact absurd this (by decide)
      · intro c hc
        exact (List.mem_takeWhile_imp hc)
  · rintro ⟨ds, ws, d, rest, rfl, hds, hws, hspace, hd⟩
    obtain ⟨w, ws', rfl⟩ := List.exists_cons_of_ne_nil hws
    have hw : IsSpace w = true := hspace w (List.mem_cons_self _ _)
    have hwd : ¬ isDigit w = true := by
      intro h
      rw [isDigit_not_space w h] at hw
      exact absurd hw (by decide)
    have hdsp : IsSpace d = false := isDigit_not_space d hd
    have h1 : removeLeadingDigits (ds ++ (w :: ws') ++ d :: rest) = (w :: ws') ++ d :: rest := by
      unfold removeLeadingDigits
      rw [List.append_assoc, dropWhile_append_all isDigit ds _ hds, List.cons_append,
        List.dropWhile_cons_of_neg hwd]
    have h2 : ((w :: ws') ++ d :: rest).dropWhile IsSpace = d :: rest := by
      rw [dropWhile_append_all IsSpace (w :: ws') _ hspace,
        List.dropWhile_cons_of_neg (by simp [hdsp])]
    obtain ⟨kept, hkept⟩ := rdropWhile_cons_keep d rest hdsp
    unfold cleanTitle TrimSpace
    rw [h1, h2, hkept]
    exact hd

end NyaaLand

namespace Tosho

/-! ### Characters -/

/-- The code point of `Char.ofNat n` below the surrogate range is `n`. -/
theorem toNat_ofNat_small (n : Nat) (h : n < 0xD800) : (Char.ofNat n).toNat = n := by
  have hv : n.isValidChar := Or.inl h
  simp [Char.ofNat, hv, Char.ofNatAux, Char.toNat, UInt32.toNat]

/-- A character is determined by its code point. -/
theorem eq_of_toNat_eq (c : Char) (n : Nat) (h : c.toNat = n) : c = Char.ofNat n := by
  rw [← h, Char.ofNat_toNat]

/-- Lower-casing twice is lower-casing once. -/
theorem toLowerRune_idem (c : Char) : toLowerRune (toLowerRune c) = toLowerRune c := by
  by_cases h1 : 65 ≤ c.toNat ∧ c.toNat ≤ 90
  · have hr : (Char.ofNat (c.toNat + 32)).toNat = c.toNat + 32 :=
      toNat_ofNat_small _ (by omega)
    have hc : toLowerRune c = Char.ofNat (c.toNat + 32) := by simp [toLowerRune, h1]
    rw [hc]
    unfold toLowerRune
    rw [hr]
    have n1 : ¬ (65 ≤ c.toNat + 32 ∧ c.toNat + 32 ≤ 90) := by omega
    have n2 : ¬ c.toNat + 32 = 0x130 := by omega
    have n3 : ¬ c.toNat + 32 = 0x212A := by omega
    simp only [n1, n2, n3, if_false]
  · by_cases h2 : c.toNat = 0x130
    · have hc : toLowerRune c = 'i' := by simp [toLowerRune, h2]
      rw [hc]; decide
    · by_cases h3 : c.toNat = 0x212A
      · have hc : toLowerRune c = 'k' := by simp [toLowerRune, h3]
        rw [hc]; decide
      · have hc : toLowerRune c = c := by simp [toLowerRune, h1, h2, h3]
        rw [hc, hc]

/-- Apart from the dotless i and the long s, upper-casing before lower-casing changes
nothing. -/
theorem toLowerRune_toUpperRune (c : Char) (hi : c.toNat ≠ 0x131) (hs : c.toNat ≠ 0x17F) :
    toLowerRune (toUpperRune c) = toLowerRune c := by
  by_cases h1 : 97 ≤ c.toNat ∧ c.toNat ≤ 122
  · have hr : (Char.ofNat (c.toNat - 32)).toNat = c.toNat - 32 :=
      toNat_ofNat_small _ (by omega)
    have hu : toUpperRune c = Char.ofNat (c.toNat - 32) := by simp [toUpperRune, h1]
    have m1 : ¬ (65 ≤ c.toNat ∧ c.toNat ≤ 90) := by omega
    have m2 : ¬ c.toNat = 0x130 := by omega
    have m3 : ¬ c.toNat = 0x212A := by omega
    have hl : toLowerRune c = c := by simp [toLowerRune, m1, m2, m3]
    rw [hu, hl]
    unfold toLowerRune
    rw [hr]
    have n1 : 65 ≤ c.toNat - 32 ∧ c.toNat - 32 ≤ 90 := by omega
    have n2 : c.toNat - 32 + 32 = c.toNat := by omega
    simp only [n1, and_self, if_true, n2, Char.ofNat_toNat]
  · have hu : toUpperRune c = c := by simp [toUpperRune, h1, hi, hs]
    rw [hu]

/-! ### Substrings -/

/-- Two texts whose characters agree, place by place, on being equal to a character of
`ext` begin with `ext` together. -/
theorem prefix_congr (ext : List Char) :
    ∀ (es s t : List Char), (∀ e ∈ es, e ∈ ext) →
      List.Forall₂ (fun a b => ∀ e ∈ ext, (e = a ↔ e = b)) s t →
      (es <+: s ↔ es <+: t) := by
  intro es
  induction es with
  | nil => intro s t _ _; simp
  | cons e es ih =>
    intro s t hsub hst
    cases hst with
    | nil => simp
    | cons hab hrest =>
      rw [List.cons_prefix_cons, List.cons_prefix_cons,
        hab e (hsub e (List.mem_cons_self _ _)),
        ih _ _ (fun x hx => hsub x (List.mem_cons_of_mem _ hx)) hrest]

/-- Such texts also contain `ext` together. -/
theorem infix_congr (ext : List Char) (s t : List Char)
    (hst : List.Forall₂ (fun a b => ∀ e ∈ ext, (e = a ↔ e = b)) s t) :
    (ext <:+: s ↔ ext <:+: t) := by
  induction hst with
  | nil => simp
  | @cons a b s t hab hrest ih =>
    rw [List.infix_cons_iff, List.infix_cons_iff, ih,
      prefix_congr ext ext (a :: s) (b :: t) (fun _ h => h) (List.Forall₂.cons hab hrest)]

/-- The loop of `isVideo` finds an extension exactly when one is contained. -/
theorem isVideoLoop_iff (lower : List Char) (exts : List (List Char)) :
    isVideoLoop lower exts = true ↔ ∃ ext ∈ exts, ext <:+: lower := by
  induction exts with
  | nil => simp [isVideoLoop]
  | cons ext exts ih =>
    by_cases h : ext <:+: lower
    · simp [isVideoLoop, Contains, h]
    · simp [isVideoLoop, Contains, h, ih]

/-- The result of `isVideo` depends on the lower-cased title only through the
extensions it contains. -/
theorem isVideoLoop_congr (s t : List Char) (exts : List (List Char))
    (h : ∀ ext ∈ exts, (ext <:+: s ↔ ext <:+: t)) :
    isVideoLoop s exts = isVideoLoop t exts := by
  rw [Bool.eq_iff_iff, isVideoLoop_iff, isVideoLoop_iff]
  constructor
  · rintro ⟨ext, hmem, hin⟩; exact ⟨ext, hmem, (h ext hmem).1 hin⟩
  · rintro ⟨ext, hmem, hin⟩; exact ⟨ext, hmem, (h ext hmem).2 hin⟩

/-- No extension holds the letter s or the long s. -/
theorem videoExt_no_s :
    ∀ ext ∈ videoExt, ∀ e ∈ ext, e ≠ 's' ∧ e ≠ Char.ofNat 0x17F := by
  decide

/-- Upper-casing a title without dotless i does not change which extensions its
lower-cased form contains. -/
theorem infix_ToLower_ToUpper (title ext : List Char) (hext : ext ∈ videoExt)
    (hi : ∀ c ∈ title, c.toNat ≠ 0x131) :
    (ext <:+: ToLower (ToUpper title) ↔ ext <:+: ToLower title) := by
  apply infix_congr
  unfold ToLower ToUpper
  rw [List.map_map, List.forall₂_map_left_iff, List.forall₂_map_right_iff, List.forall₂_same]
  intro c hc e he
  by_cases hs : c.toNat = 0x17F
  · have hcs := eq_of_toNat_eq c _ hs
    subst hcs
    have hne := videoExt_no_s ext hext e he
    have h1 : (toLowerRune ∘ toUpperRune) (Char.ofNat 0x17F) = 's' := by decide
    have h2 : toLowerRune (Char.ofNat 0x17F) = Char.ofNat 0x17F := by decide
    rw [h1, h2]
    exact ⟨fun h => absurd h hne.1, fun h => absurd h hne.2⟩
  · rw [Function.comp_apply, toLowerRune_toUpperRune c (hi c hc) hs]

/-! ### `isVideo` -/

/-- C10, as stated, fails. The title `.avı`, written with a dotless i, is not a video for
`isVideo`, while its upper-cased form `.AVI` is one. -/
theorem isVideo_case_counterexample :
    isVideo ['.', 'a', 'v', Char.ofNat 0x131] = false ∧
      ToUpper ['.', 'a', 'v', Char.ofNat 0x131] = ".AVI".toList ∧
      isVideo (ToUpper ['.', 'a', 'v', Char.ofNat 0x131]) = true := by
  decide

/-- C10, amended. For every title, `isVideo title` is true exactly when the lower-cased
title contains, anywhere, one of the nine extensions of `videoExt`; `isVideo` gives the
same answer on the title and on its lower-cased form, and also on its upper-cased form
when the title holds no dotless i (U+0131, which upper-cases to the ASCII letter I);
`isVideo ""` is false, so the callback writes the title exactly when `isVideo title`
holds. -/
theorem isVideo_spec (title : List Char) (file : List (List Char)) :
    (isVideo title = true ↔ ∃ ext ∈ videoExt, ext <:+: ToLower title)
    ∧ videoExt.length = 9
    ∧ isVideo (ToLower title) = isVideo title
    ∧ ((∀ c ∈ title, c.toNat ≠ 0x131) → isVideo (ToUpper title) = isVideo title)
    ∧ isVideo [] = false
    ∧ onLink title file = if isVideo title then file ++ [title ++ ['\n']] else file := by
  refine ⟨isVideoLoop_iff _ _, rfl, ?_, ?_, by decide, ?_⟩
  · have hidem : ToLower (ToLower title) = ToLower title := by
      unfold ToLower
      rw [List.map_map]
      exact List.map_congr_left (fun c _ => toLowerRune_idem c)
    unfold isVideo
    simp only [hidem]
  · intro hi
    unfold isVideo
    exact isVideoLoop_congr _ _ _ (fun ext hext => infix_ToLower_ToUpper title ext hext hi)
  · unfold onLink
    by_cases hv : isVideo title = true
    · have hne : title ≠ [] := by
        rintro rfl
        exact absurd hv (by decide)
      simp [hv, hne]
    · simp [hv]

/-- A run of C10, amended: a title in upper case, without dotless i. -/
theorem isVideo_spec_witness :
    (∀ c ∈ "[Grp] Show - 01.MKV".toList, c.toNat ≠ 0x131) ∧
      isVideo (ToUpper "[Grp] Show - 01.MKV".toList) = isVideo "[Grp] Show - 01.MKV".toList ∧
      isVideo "[Grp] Show - 01.MKV".toList = true :=
  ⟨by decide, (isVideo_spec "[Grp] Show - 01.MKV".toList []).2.2.2.1 (by decide), by decide⟩

end Tosho
